import Mathlib

/-!
Verification of the zk note-manager core (metadata-block codec, entity
model, index store, sync engine) against its specification.

Strings are modelled as lists of characters (`Str`); the filesystem as
association lists from path strings to file contents; directory trees as an
inductive type mirroring the recursive directory walk.  External
collaborators (serde_yaml, the clock, the random id generator) are modelled
at the granularity the code observes: the YAML mapping codec is modelled for
the plain-scalar subset the program emits, and unordered Rust `HashMap`
iteration is modelled by quantifying over the iteration order (an arbitrary
permutation of the keys).
-/

abbrev Str := List Char

/-- Splits at every newline character; the result always has one more
element than the number of newlines (a trailing fragment may be empty). -/
def splitNl : Str → List Str
  | [] => [[]]
  | c :: cs =>
    let r := splitNl cs
    if c = '\n' then [] :: r
    else
      match r with
      | [] => [[c]]
      | l :: ls => (c :: l) :: ls

/-- Drops a trailing carriage return, as Rust's BufRead::lines does for
newline-terminated lines. -/
def stripCR (l : Str) : Str :=
  if l.getLast? = some '\r' then l.dropLast else l

/-- Model of Rust `BufRead::lines()`: split at newlines, strip a carriage
return before each newline, and drop the final fragment when it is empty
(i.e. when the input ends with a newline or is empty). -/
def rust_lines (s : Str) : List Str :=
  let parts := splitNl s
  parts.dropLast.map stripCR ++
    (match parts.getLast? with
     | some [] => []
     | some l => [l]
     | none => [])

/-- A YAML scalar value as the program observes it through
serde_yaml::Value::as_str: a string, or some non-string scalar. -/
inductive YVal where
  | str (s : Str)
  | bool (b : Bool)
  | num
  | null
  deriving DecidableEq, Repr

def YVal.asStr : YVal → Option Str
  | .str s => some s
  | _ => none

/-- Association-list lookup keyed by character-list equality (models both
serde_yaml::Mapping::get and HashMap::get). -/
def lookupS {β : Type} (k : Str) : List (Str × β) → Option β
  | [] => none
  | kv :: rest => if kv.1 = k then some kv.2 else lookupS k rest

/-- Splits a YAML line at the first colon-space separator. -/
def splitKV : Str → Option (Str × Str)
  | [] => none
  | c :: rest =>
    if c = ':' ∧ rest.head? = some ' ' then some ([], rest.tail)
    else (splitKV rest).map (fun p => (c :: p.1, p.2))

/-- Recognizes the integer literals Rust's i64 parser accepts (model: an
optional sign followed by digits). -/
def isIntLit (v : Str) : Bool :=
  match v with
  | [] => false
  | c :: rest =>
    if c = '-' ∨ c = '+' then !rest.isEmpty && rest.all Char.isDigit
    else (c :: rest).all Char.isDigit

/-- Classifies a plain YAML scalar the way serde_yaml's parser does:
booleans, null forms and integers become non-string values, everything else
stays a string.  (Model of the scalar subset the program reads and writes.) -/
def classify (v : Str) : YVal :=
  if v = "true".data then .bool true
  else if v = "false".data then .bool false
  else if v = [] ∨ v = "~".data ∨ v = "null".data then .null
  else if isIntLit v then .num
  else .str v

/-- Parses the accumulated frontmatter lines as a YAML mapping: each
non-blank line must be key-colon-space-value (the shape the program itself
emits); blank lines are ignored.  Model of serde_yaml::from_str restricted
to the flat string-to-scalar mappings this program exchanges. -/
def yamlParseLines : List Str → Option (List (Str × YVal))
  | [] => some []
  | l :: ls =>
    if l = [] then yamlParseLines ls
    else
      match splitKV l with
      | none => none
      | some kv => (yamlParseLines ls).map (fun m => (kv.1, classify kv.2) :: m)

/-- The frontmatter delimiter token. -/
def dashes : Str := ['-', '-', '-']

inductive FmError where
  | missingInitialDelimiter
  | missingFinalDelimiter
  | serializationError
  deriving DecidableEq, Repr

/-- Outcome of frontmatter::parse_yaml; `panic` records that the Rust code
aborts (Option::unwrap on None) rather than returning an error. -/
inductive FmOutcome where
  | panic
  | err (e : FmError)
  | ok (m : List (Str × YVal))
  deriving DecidableEq, Repr

/-- Accumulates lines before the closing delimiter; `none` when end of input
is reached first. -/
def untilDelim : List Str → Option (List Str × List Str)
  | [] => none
  | l :: ls =>
    if l = dashes then some ([], ls)
    else (untilDelim ls).map (fun p => (l :: p.1, p.2))

namespace frontmatter

/-- Embedding of frontmatter::parse_yaml (src/frontmatter.rs:40-59): the
first line must be exactly the delimiter, subsequent lines are accumulated
until a delimiter line, then parsed as a YAML mapping.  On empty input the
Rust code calls lines.next().unwrap() on None and panics. -/
def parse_yaml (s : Str) : FmOutcome :=
  match rust_lines s with
  | [] => .panic
  | first :: rest =>
    if first = dashes then
      match untilDelim rest with
      | none => .err .missingFinalDelimiter
      | some p =>
        match yamlParseLines p.1 with
        | none => .err .serializationError
        | some m => .ok m
    else .err .missingInitialDelimiter

end frontmatter

/-- Calendar date of a chrono::DateTime as far as the program observes it
(the %Y-%m-%d format and equality). -/
structure ChronoDate where
  year : Nat
  month : Nat
  day : Nat
  deriving DecidableEq, Repr

/-- Decimal digits of a natural number (fuel-based so that it reduces). -/
def natDigitsAux : Nat → Nat → Str
  | 0, _ => []
  | fuel + 1, n =>
    if n < 10 then [Char.ofNat (48 + n)]
    else natDigitsAux fuel (n / 10) ++ [Char.ofNat (48 + n % 10)]

def natDigits (n : Nat) : Str := natDigitsAux (n + 1) n

/-- Zero-pads a number to the given width, as chrono's %Y/%m/%d do. -/
def pad (w n : Nat) : Str :=
  List.replicate (w - (natDigits n).length) '0' ++ natDigits n

/-- Model of chrono's format("%Y-%m-%d"). -/
def formatYmd (d : ChronoDate) : Str :=
  pad 4 d.year ++ '-' :: (pad 2 d.month ++ '-' :: pad 2 d.day)

/-- Entity model: note metadata (src/zettel.rs:33-42). -/
structure ZettelMeta where
  created : ChronoDate
  modified : ChronoDate
  title : Str
  path : Str
  id : Str
  deriving DecidableEq, Repr

structure Zettel where
  meta : ZettelMeta
  content : Str
  deriving DecidableEq, Repr

inductive ZErr where
  | unknownField
  | frontmatterError (e : FmError)
  deriving DecidableEq, Repr

/-- A header template: output key to value source, in the iteration order of
the backing HashMap. -/
abbrev Tmpl := List (Str × Str)

/-- Resolves one template value: a value starting with the marker character
is replaced by the named metadata field, anything else is copied verbatim
(src/zettel.rs:84-93). -/
def refValue (meta : ZettelMeta) (v : Str) : Except ZErr Str :=
  if v.head? = some '@' then
    let name := v.tail
    if name = "title".data then .ok meta.title
    else if name = "id".data then .ok meta.id
    else if name = "created".data then .ok (formatYmd meta.created)
    else .error .unknownField
  else .ok v

/-- Resolves every template entry in template-iteration order, stopping at
the first unknown reference (the loop of Zettel::as_string). -/
def renderPairs (meta : ZettelMeta) : Tmpl → Except ZErr (List (Str × Str))
  | [] => .ok []
  | kv :: rest =>
    match refValue meta kv.2 with
    | .error e => .error e
    | .ok v =>
      match renderPairs meta rest with
      | .error e => .error e
      | .ok ps => .ok ((kv.1, v) :: ps)

/-- Reorders the computed pairs into a given key order: models reading the
freshly built HashMap back out in its own iteration order. -/
def arrange (order : List Str) (pairs : List (Str × Str)) : List (Str × Str) :=
  order.filterMap (fun k => (lookupS k pairs).map (fun v => (k, v)))

/-- One emitted mapping line. -/
def lineOf (kv : Str × Str) : Str := kv.1 ++ ':' :: ' ' :: kv.2

def joinSep (sep : Char) : List Str → Str
  | [] => []
  | [l] => l
  | l :: l₂ :: ls => l ++ sep :: joinSep sep (l₂ :: ls)

/-- Model of frontmatter::write_str, i.e. serde_yaml(0.8)::to_string on a
string-to-string map: a document-start marker line followed by one
key-colon-space-value line per entry, no trailing newline; restricted to the
plain scalars this program emits unquoted. -/
def write_str (fm : List (Str × Str)) : Str :=
  dashes ++ '\n' :: joinSep '\n' (fm.map lineOf)

namespace Zettel

/-- Embedding of Zettel::as_string (src/zettel.rs:81-101): resolve the
template into a fresh HashMap, serialize it, and append newline, the closing
delimiter, the body and a final newline.  `order` is the iteration order of
the fresh HashMap, a permutation of the template keys chosen by the hash
seed and outside the program's control. -/
def as_string (order : List Str) (tpl : Tmpl) (meta : ZettelMeta) (content : Str) :
    Except ZErr Str :=
  match renderPairs meta tpl with
  | .error e => .error e
  | .ok pairs => .ok (write_str (arrange order pairs) ++ '\n' :: dashes ++ content ++ ['\n'])

end Zettel

instance {ε α : Type} [DecidableEq ε] [DecidableEq α] : DecidableEq (Except ε α) :=
  fun a b =>
    match a, b with
    | .ok x, .ok y =>
      if h : x = y then isTrue (by rw [h]) else isFalse (by intro hh; cases hh; exact h rfl)
    | .error x, .error y =>
      if h : x = y then isTrue (by rw [h]) else isFalse (by intro hh; cases hh; exact h rfl)
    | .ok _, .error _ => isFalse (by intro h; cases h)
    | .error _, .ok _ => isFalse (by intro h; cases h)

/-- The possible outputs of Zettel::as_string on given inputs: one per legal
iteration order of the intermediate HashMap. -/
def AsStringOut (tpl : Tmpl) (meta : ZettelMeta) (content out : Str) : Prop :=
  ∃ order, order.Perm (tpl.map Prod.fst) ∧
    Zettel.as_string order tpl meta content = .ok out

/-- Index-level metadata (src/zettelkasten.rs:272-278). -/
structure ZkMeta where
  created : ChronoDate
  modified : ChronoDate
  deriving DecidableEq, Repr

/-- The serialized contents of the index (src/zettelkasten.rs:70-76): index
meta, the header template (a HashMap, modelled in iteration order), and the
id-to-metadata map (a HashMap, modelled as an association list). -/
structure ZkContents where
  meta : ZkMeta
  default_frontmatter : Tmpl
  zettels : List (Str × ZettelMeta)
  deriving DecidableEq, Repr

/-- The index store (src/zettelkasten.rs:79-87). -/
structure Zettelkasten where
  contents : ZkContents
  root_path : Str
  db_path : Str
  deriving DecidableEq, Repr

inductive ZkError where
  | ioError
  | serializationError
  | zettelError (e : ZErr)
  | otherErr
  deriving DecidableEq, Repr

/-- PathBuf::push for a relative component (path strings joined by a slash). -/
def joinPath (a b : Str) : Str := a ++ '/' :: b

/-- The filesystem as the program sees it through File::create/open: path
string to file contents. -/
abbrev FsMap := List (Str × Str)

def fsInsert (p v : Str) : FsMap → FsMap
  | [] => [(p, v)]
  | kv :: rest => if kv.1 = p then (p, v) :: rest else kv :: fsInsert p v rest

/-- HashMap::insert on the id-to-metadata map: replace in place or append. -/
def insertKV (k : Str) (v : ZettelMeta) : List (Str × ZettelMeta) → List (Str × ZettelMeta)
  | [] => [(k, v)]
  | kv :: rest => if kv.1 = k then (k, v) :: rest else kv :: insertKV k v rest

namespace Zettelkasten

/-- Embedding of Zettelkasten::add (src/zettelkasten.rs:135-148): compute
the absolute path; if a file exists there fail; otherwise create the file
(File::create runs before as_string, so an empty file is left behind when
rendering fails), render, write, and register the metadata under its id.
Returns the filesystem, the state, and the error if any.  `order` is the
iteration order of the intermediate HashMap in as_string. -/
def add (order : List Str) (fs : FsMap) (zk : Zettelkasten) (z : Zettel) :
    FsMap × Zettelkasten × Option ZkError :=
  if (lookupS (joinPath zk.root_path z.meta.path) fs).isSome then (fs, zk, some .otherErr)
  else
    match Zettel.as_string order zk.contents.default_frontmatter z.meta z.content with
    | .error e => (fsInsert (joinPath zk.root_path z.meta.path) [] fs, zk, some (.zettelError e))
    | .ok s =>
      (fsInsert (joinPath zk.root_path z.meta.path) s
         (fsInsert (joinPath zk.root_path z.meta.path) [] fs),
       { zk with contents := { zk.contents with
           zettels := insertKV z.meta.id z.meta zk.contents.zettels } },
       none)

/-- File write through OpenOptions::new().create(true).write(true) with no
truncate (src/zettelkasten.rs:261-268): the new bytes overwrite the start of
the old contents and any old tail beyond the new length survives. -/
def writeNoTrunc (new old : Str) : Str := new ++ old.drop new.length

/-- Embedding of Zettelkasten::commit: serialize the contents (serializer
passed in as the serde_yaml collaborator) and write them to the backing file
without truncating it. -/
def commit (ser : ZkContents → Str) (fs : FsMap) (zk : Zettelkasten) : FsMap :=
  let p := joinPath zk.root_path zk.db_path
  fsInsert p (writeNoTrunc (ser zk.contents) ((lookupS p fs).getD [])) fs

end Zettelkasten

/-- Root-relative path components rendered the way Path::strip_prefix
followed by to_str renders them. -/
def relString (rel : List Str) : Str := joinSep '/' rel

def strStarts : Str → Str → Bool
  | [], _ => true
  | _, [] => false
  | p :: ps, c :: cs => p = c && strStarts ps cs

def updMeta (m : ZettelMeta) (p : Str) (t : Option Str) : ZettelMeta :=
  { m with path := p, title := t.getD m.title }

/-- The in-place update of the one map entry sync_file rewrites (get_mut on
a HashMap; on the association-list model, a key-preserving map). -/
def updZettels (id p : Str) (t : Option Str) (l : List (Str × ZettelMeta)) :
    List (Str × ZettelMeta) :=
  l.map (fun km => if km.1 = id then (km.1, updMeta km.2 p t) else km)

namespace Zettelkasten

/-- Embedding of Zettelkasten::sync_file (src/zettelkasten.rs:207-258) for a
file at root-relative path `rel` with the given contents.  parse_yaml_path
is absent from the sources; modelled from the spec ("Parse only the header
via the Codec") as parse_yaml applied to the file contents.  A parse panic
(empty file) aborts the process: `none`.  Parse errors, a missing or
non-string id, and an unknown id only skip the file. -/
def sync_file (zk : Zettelkasten) (rel : List Str) (content : Str) : Option Zettelkasten :=
  match frontmatter.parse_yaml content with
  | .panic => none
  | .err _ => some zk
  | .ok fm =>
    match lookupS "id".data fm with
    | none => some zk
    | some v =>
      match v.asStr with
      | none => some zk
      | some id =>
        match lookupS id zk.contents.zettels with
        | none => some zk
        | some _ =>
          some { zk with contents := { zk.contents with
            zettels := updZettels id (relString rel)
              ((lookupS "title".data fm).bind YVal.asStr) zk.contents.zettels } }

end Zettelkasten

/-- A directory listing in readdir order: files and subdirectories carrying
their entry names. -/
inductive FsEntries where
  | nil : FsEntries
  | file (name : Str) (content : Str) (rest : FsEntries) : FsEntries
  | dir (name : Str) (entries : FsEntries) (rest : FsEntries) : FsEntries
  deriving DecidableEq, Repr

namespace Zettelkasten

/-- Embedding of Zettelkasten::sync_dir (src/zettelkasten.rs:184-205):
iterate the directory entries, skip any entry whose name starts with
"_zettel", recurse into subdirectories, and run sync_file on files.  A
sync_file panic aborts the whole walk. -/
def sync_dir (zk : Zettelkasten) (rel : List Str) : FsEntries → Option Zettelkasten
  | .nil => some zk
  | .file name content rest =>
    if strStarts "_zettel".data name then sync_dir zk rel rest
    else
      match sync_file zk (rel ++ [name]) content with
      | none => none
      | some zk₁ => sync_dir zk₁ rel rest
  | .dir name entries rest =>
    if strStarts "_zettel".data name then sync_dir zk rel rest
    else
      match sync_dir zk (rel ++ [name]) entries with
      | none => none
      | some zk₁ => sync_dir zk₁ rel rest

/-- Embedding of Zettelkasten::sync (src/zettelkasten.rs:180-182): walk the
collection root. -/
def sync (zk : Zettelkasten) (tree : FsEntries) : Option Zettelkasten :=
  sync_dir zk [] tree

end Zettelkasten

/-- The filesystem as Zettelkasten::open sees it: regular files with their
contents, plus the set of directories. -/
structure SimpleFs where
  files : FsMap
  dirs : List Str
  deriving DecidableEq, Repr

/-- Path::exists. -/
def fsExists (fs : SimpleFs) (p : Str) : Prop :=
  (lookupS p fs.files).isSome = true ∨ p ∈ fs.dirs

instance (fs : SimpleFs) (p : Str) : Decidable (fsExists fs p) := by
  unfold fsExists; infer_instance

/-- Generic character split, total (result never empty), used for the '/'
and '.' splits of Path::file_name and str::split. -/
def splitOnChar (sep : Char) : Str → List Str
  | [] => [[]]
  | c :: cs =>
    let r := splitOnChar sep cs
    if c = sep then [] :: r
    else
      match r with
      | [] => [[c]]
      | l :: ls => (c :: l) :: ls

/-- Path::file_name: the final path component, none when it is empty. -/
def fileNameOf (p : Str) : Option Str :=
  match (splitOnChar '/' p).getLast? with
  | some [] => none
  | some l => some l
  | none => none

/-- Path::parent rendered back to a string. -/
def parentOf (p : Str) : Str := joinSep '/' (splitOnChar '/' p).dropLast

/-- Embedding of resolve_db_path (src/zettelkasten.rs:358-370): inside a
directory look for the conventional backing file, otherwise take the path
itself. -/
def resolve_db_path (fs : SimpleFs) (p : Str) : Option Str :=
  if p ∈ fs.dirs then
    let y := joinPath p "_zettel.yaml".data
    if fsExists fs y then some y else none
  else some p

/-- Embedding of Zettelkasten::open (src/zettelkasten.rs:101-133), with
serde_yaml::from_reader passed in as the deserializer collaborator.  A path
that does not exist at all returns Ok(None) through the first guard. -/
def openZk (deser : Str → Option ZkContents) (fs : SimpleFs) (p : Str) :
    Except ZkError (Option Zettelkasten) :=
  if fsExists fs p then
    match resolve_db_path fs p with
    | none => .ok none
    | some dbp =>
      match fileNameOf dbp with
      | none => .error .otherErr
      | some filename =>
        match (splitOnChar '.' filename).getLast? with
        | some suf =>
          if suf = "yaml".data ∨ suf = "yml".data then
            match lookupS dbp fs.files with
            | none => .error .ioError
            | some content =>
              match deser content with
              | none => .error .serializationError
              | some c => .ok (some ⟨c, parentOf dbp, dbp⟩)
          else .error .otherErr
        | none => .error .otherErr
  else .ok none

namespace Database

/-- Embedding of Database::make_filename (src/database/yaml.rs:80-87): the
filename is built from the CURRENT date (Local::now(), passed here as `now`)
and the space-to-dash title, pushed onto the absolute root directory. -/
def make_filename (root : Str) (title : Str) (now : ChronoDate) : Str :=
  joinPath root (formatYmd now ++ '-' :: (title.map (fun c => if c = ' ' then '-' else c) ++ ".md".data))

/-- Embedding of Database::new_zettel (src/database/yaml.rs:96-114): the
metadata carries the passed creation date but the path from make_filename
(absolute, dated with the current time). -/
def new_zettel (root : Str) (title : Str) (id : Str) (date now : ChronoDate) : Zettel :=
  { meta :=
      { created := date
        modified := date
        id := id
        title := title
        path := make_filename root title now }
    content := [] }

end Database

/-- Modelled from the spec: Zettelkasten::new / Zettelkasten::default, the
index constructor used by `init` and by Database::get_zk's no-database
branch (main.rs:90, src/database/yaml.rs:69-75); the constructor itself is
absent from the sources.  Per the spec it yields an empty zettels map and
the given template. -/
def Zettelkasten.newZk (meta : ZkMeta) (fm : Tmpl) : ZkContents :=
  { meta := meta, default_frontmatter := fm, zettels := [] }

/-- The default template built by Database::get_zk (src/database/yaml.rs:
65-68), in insertion order; its HashMap iteration order is unspecified. -/
def defaultTemplate : Tmpl :=
  [("title".data, "@title".data), ("id".data, "@id".data), ("date".data, "@created".data)]

/-- A crude stand-in for serde_yaml::to_writer on ZkContents, used only to
exhibit commit's non-truncating write: one line per zettel after a fixed
header, so that smaller states serialize to fewer bytes. -/
def ser_model (c : ZkContents) : Str :=
  "zettels:\n".data ++ joinSep '\n' (c.zettels.map (fun km => km.1 ++ ':' :: ' ' :: km.2.path))

/-! ### Sync as a sequence of per-file actions

Each file a sync pass reaches contributes one action, computed from the
file alone: abort (the parse panic), skip, or update one id's path/title.
This is the semantic skeleton used to prove the frame and idempotence
properties of sync. -/

inductive Act where
  | panic
  | skip
  | upd (id : Str) (p : Str) (t : Option Str)
  deriving DecidableEq, Repr

/-- The action sync_file takes for a file at root-relative path `rel` with
the given contents; it depends only on the file. -/
def actOfFile (rel : List Str) (content : Str) : Act :=
  match frontmatter.parse_yaml content with
  | .panic => .panic
  | .err _ => .skip
  | .ok fm =>
    match lookupS "id".data fm with
    | none => .skip
    | some v =>
      match v.asStr with
      | none => .skip
      | some id => .upd id (relString rel) ((lookupS "title".data fm).bind YVal.asStr)

def updZk (zk : Zettelkasten) (id p : Str) (t : Option Str) : Zettelkasten :=
  { zk with contents := { zk.contents with
      zettels := updZettels id p t zk.contents.zettels } }

def runAct (zk : Zettelkasten) : Act → Option Zettelkasten
  | .panic => none
  | .skip => some zk
  | .upd id p t => some (updZk zk id p t)

def runActs (zk : Zettelkasten) : List Act → Option Zettelkasten
  | [] => some zk
  | a :: rest =>
    match runAct zk a with
    | none => none
    | some z => runActs z rest

/-- The actions of one directory walk, in visit order. -/
def dirActs (rel : List Str) : FsEntries → List Act
  | .nil => []
  | .file n c rest =>
    (if strStarts "_zettel".data n then [] else [actOfFile (rel ++ [n]) c]) ++ dirActs rel rest
  | .dir n es rest =>
    (if strStarts "_zettel".data n then [] else dirActs (rel ++ [n]) es) ++ dirActs rel rest

def applyAct (zk : Zettelkasten) : Act → Zettelkasten
  | .upd id p t => updZk zk id p t
  | _ => zk

def applyActs (acts : List Act) (zk : Zettelkasten) : Zettelkasten :=
  acts.foldl applyAct zk

def hasPanic (acts : List Act) : Bool :=
  acts.any (fun a => match a with | .panic => true | _ => false)

def metaStep (k : Str) (m : ZettelMeta) : Act → ZettelMeta
  | .upd id p t => if k = id then updMeta m p t else m
  | _ => m

def metaFold (k : Str) (acts : List Act) (m : ZettelMeta) : ZettelMeta :=
  acts.foldl (metaStep k) m

/-- Last `some` produced by `f` along the action list, else the accumulator. -/
def lastSome (f : Act → Option Str) (acts : List Act) (acc : Option Str) : Option Str :=
  acts.foldl (fun ac a => match f a with | some b => some b | none => ac) acc

def pathSel (k : Str) : Act → Option Str
  | .upd id p _ => if k = id then some p else none
  | _ => none

def titleSel (k : Str) : Act → Option Str
  | .upd id _ (some t) => if k = id then some t else none
  | _ => none

/-- Created/modified/id of every surviving entry agree with the old map. -/
def fieldsFrame (old new : List (Str × ZettelMeta)) : Prop :=
  ∀ k m', lookupS k new = some m' →
    ∃ m, lookupS k old = some m ∧
      m'.created = m.created ∧ m'.modified = m.modified ∧ m'.id = m.id

/-! ### Plain-scalar predicates for the round-trip property -/

def cleanStr (a : Str) : Prop := ∀ c ∈ a, c ≠ '\n' ∧ c ≠ '\r'

instance (a : Str) : Decidable (cleanStr a) := by unfold cleanStr; infer_instance

/-- A key serde_yaml emits verbatim and this model parses back. -/
def SimpleKey (k : Str) : Prop :=
  k ≠ [] ∧ ∀ c ∈ k, c.isAlphanum = true ∨ c = '-' ∨ c = '_'

instance (k : Str) : Decidable (SimpleKey k) := by unfold SimpleKey; infer_instance

/-- A scalar string serde_yaml emits unquoted and parses back as the same
string: nonempty, over a tame alphabet, not a boolean/null keyword, not an
integer literal, no trailing space. -/
def SimpleVal (v : Str) : Prop :=
  v ≠ [] ∧ (∀ c ∈ v, c.isAlphanum = true ∨ c = '-' ∨ c = '_' ∨ c = ' ') ∧
  v ≠ "true".data ∧ v ≠ "false".data ∧ v ≠ "null".data ∧ v ≠ "~".data ∧
  isIntLit v = false ∧ v.getLast? ≠ some ' '

instance (v : Str) : Decidable (SimpleVal v) := by unfold SimpleVal; infer_instance

/-- Scalars that classify back to themselves and stay on one line. -/
def GoodVal (v : Str) : Prop := classify v = .str v ∧ cleanStr v

/-- Template value sources the round-trip covers: one of the three
reference tokens, or a plain literal. -/
def RV (v : Str) : Prop :=
  v = "@title".data ∨ v = "@id".data ∨ v = "@created".data ∨
    (v.head? ≠ some '@' ∧ SimpleVal v)

instance (v : Str) : Decidable (RV v) := by unfold RV; infer_instance

/-- Template/metadata well-formedness for the round-trip property. -/
def TplOk (tpl : Tmpl) (meta : ZettelMeta) : Prop :=
  (tpl.map Prod.fst).Nodup ∧ (∀ kv ∈ tpl, SimpleKey kv.1) ∧ (∀ kv ∈ tpl, RV kv.2) ∧
  SimpleVal meta.title ∧ SimpleVal meta.id

instance (tpl : Tmpl) (meta : ZettelMeta) : Decidable (TplOk tpl meta) := by
  unfold TplOk; infer_instance

/-- Bodies whose first byte does not corrupt the closing delimiter line. -/
def BodyOk (b : Str) : Prop := b = [] ∨ b.head? = some '\n'

instance (b : Str) : Decidable (BodyOk b) := by unfold BodyOk; infer_instance

/-- Total version of refValue (meaningful on resolvable templates). -/
def resolveT (meta : ZettelMeta) (v : Str) : Str :=
  match refValue meta v with
  | .ok w => w
  | .error _ => []

def resolvedPairs (meta : ZettelMeta) (tpl : Tmpl) : List (Str × Str) :=
  tpl.map (fun kv => (kv.1, resolveT meta kv.2))

/-- The rendered note for a given intermediate-map iteration order. -/
def renderedOut (o : List Str) (tpl : Tmpl) (meta : ZettelMeta) (body : Str) : Str :=
  write_str (arrange o (resolvedPairs meta tpl)) ++ '\n' :: dashes ++ body ++ ['\n']

/-- The mapping parse_yaml recovers from the rendered note. -/
def headerVals (o : List Str) (meta : ZettelMeta) (tpl : Tmpl) : List (Str × YVal) :=
  o.map (fun k => (k, .str ((lookupS k (resolvedPairs meta tpl)).getD [])))

/-! ### Concrete fixtures for counterexamples and witnesses -/

def metaW : ZettelMeta :=
  { created := ⟨2015, 5, 15⟩
    modified := ⟨2015, 5, 15⟩
    title := "My Note".data
    path := "p.md".data
    id := "abc123".data }

def tplC2 : Tmpl := [("a".data, "x".data), ("b".data, "y".data)]

def zkC5 : Zettelkasten :=
  { contents :=
      { meta := ⟨⟨2020, 1, 1⟩, ⟨2020, 1, 1⟩⟩
        default_frontmatter := defaultTemplate
        zettels := [] }
    root_path := "/r".data
    db_path := "_zettel.yaml".data }

def fsC5 : FsMap :=
  [("/r/_zettel.yaml".data, "zettels:\n".data ++ List.replicate 26 'A')]

def metaC7 : ZettelMeta :=
  { created := ⟨2015, 5, 15⟩
    modified := ⟨2015, 5, 16⟩
    title := "old title".data
    path := "old.md".data
    id := "x".data }

def zkC7 : Zettelkasten :=
  { contents :=
      { meta := ⟨⟨2020, 1, 1⟩, ⟨2020, 1, 1⟩⟩
        default_frontmatter := defaultTemplate
        zettels := [("x".data, metaC7)] }
    root_path := "/r".data
    db_path := "_zettel.yaml".data }

def goodC7 : Str := "---\nid: x\n---\n".data

def zC9 : Zettel :=
  Database.new_zettel "/r".data "My Note".data "ABCDEFGHIJKLMNOPQR".data
    ⟨2015, 5, 15⟩ ⟨2025, 10, 12⟩


/-! ## Claim theorems -/

/-- C3: the claim says parse_yaml fails with MissingOpenDelimiter when the
first line is not the delimiter — including on empty input — and never
panics.  Evaluating the embedding at the failing input: on empty input the
code reaches lines.next().unwrap() on None and panics; the error cases for
nonempty input behave as claimed. -/
theorem c3_parse_yaml_panics_on_empty_input :
    frontmatter.parse_yaml [] = .panic ∧
    frontmatter.parse_yaml "x\n---\n".data = .err .missingInitialDelimiter ∧
    frontmatter.parse_yaml "---\na: b\n".data = .err .missingFinalDelimiter := by
  decide

/-- C10: opening a path that does not exist on the filesystem at all
returns Ok(None) through the first guard of Zettelkasten::open, not an I/O
error. -/
theorem c10_open_missing_path_is_ok_none
    (deser : Str → Option ZkContents) (fs : SimpleFs) (p : Str)
    (h : ¬ fsExists fs p) : openZk deser fs p = .ok none := by
  unfold openZk
  rw [if_neg h]

theorem c10_open_missing_path_witness :
    ¬ fsExists ⟨[], []⟩ "/nowhere".data ∧
      openZk (fun _ => none) ⟨[], []⟩ "/nowhere".data = .ok none :=
  ⟨by decide, c10_open_missing_path_is_ok_none (fun _ => none) ⟨[], []⟩ "/nowhere".data (by decide)⟩

/-- C5: the claim says commit overwrites the backing file so that it
afterwards contains exactly the serialization of the current state.
Evaluating the embedding at the failing input: commit opens the file with
create+write but without truncate, so when the file previously held more
bytes than the new serialization the old tail survives and the file is not
the serialization of the committed state. -/
theorem c5_commit_leaves_stale_tail :
    lookupS (joinPath zkC5.root_path zkC5.db_path)
        (Zettelkasten.commit ser_model fsC5 zkC5) =
      some ("zettels:\n".data ++ List.replicate 26 'A') ∧
    some (ser_model zkC5.contents) ≠
      lookupS (joinPath zkC5.root_path zkC5.db_path)
        (Zettelkasten.commit ser_model fsC5 zkC5) := by
  decide

/-- C9: the claim says new("My Note", T1) creates the file
"<T1-date>-My-Note.md" and registers the id with the path field equal to
that root-relative filename.  Evaluating the embedding at the failing input
(T1 = 2015-05-15, current date 2025-10-12): make_filename names the file
with the CURRENT date (Local::now()), stores the absolute root-joined path,
and only the header date comes from T1 — the repository's own test
(main.rs, create_and_sync) expects the T1-dated filename. -/
theorem c9_new_zettel_uses_current_date_and_absolute_path :
    zC9.meta.path = "/r/2025-10-12-My-Note.md".data ∧
    zC9.meta.path ≠ "2015-05-15-My-Note.md".data ∧
    zC9.meta.created = ⟨2015, 5, 15⟩ ∧
    refValue zC9.meta "@created".data = .ok "2015-05-15".data ∧
    zC9.meta.id.length = 18 := by
  decide

theorem lookupS_fsInsert (p v : Str) (l : FsMap) : lookupS p (fsInsert p v l) = some v := by
  induction l with
  | nil => simp [fsInsert, lookupS]
  | cons kv rest ih =>
    by_cases h : kv.1 = p
    · simp [fsInsert, h, lookupS]
    · simp [fsInsert, h, lookupS, ih]

theorem add_exists_fails (order : List Str) (fs : FsMap) (zk : Zettelkasten) (z : Zettel)
    (h : (lookupS (joinPath zk.root_path z.meta.path) fs).isSome = true) :
    Zettelkasten.add order fs zk z = (fs, zk, some .otherErr) := by
  unfold Zettelkasten.add
  simp [h]

/-- C4: when a file already exists at the computed absolute path, add fails,
writes nothing, and leaves the id-to-metadata map untouched; in particular a
second add targeting the path of a successful first add fails and changes
neither the filesystem nor the map. -/
theorem c4_add_uniqueness :
    (∀ (order : List Str) (fs : FsMap) (zk : Zettelkasten) (z : Zettel),
      (lookupS (joinPath zk.root_path z.meta.path) fs).isSome = true →
      Zettelkasten.add order fs zk z = (fs, zk, some .otherErr)) ∧
    (∀ (o₁ o₂ : List Str) (fs fs' : FsMap) (zk zk' : Zettelkasten) (z z' : Zettel),
      Zettelkasten.add o₁ fs zk z = (fs', zk', none) →
      joinPath zk'.root_path z'.meta.path = joinPath zk.root_path z.meta.path →
      Zettelkasten.add o₂ fs' zk' z' = (fs', zk', some .otherErr)) := by
  refine ⟨add_exists_fails, ?_⟩
  intro o₁ o₂ fs fs' zk zk' z z' hadd hpath
  unfold Zettelkasten.add at hadd
  split at hadd
  · simp at hadd
  · split at hadd
    · simp at hadd
    · simp only [Prod.mk.injEq] at hadd
      obtain ⟨hf, hz, -⟩ := hadd
      subst hf hz
      refine add_exists_fails o₂ _ _ z' ?_
      rw [hpath]
      rw [lookupS_fsInsert]
      rfl

theorem c4_add_uniqueness_witness :
    Zettelkasten.add [] [("/r/p.md".data, [])] zkC5 ⟨metaW, []⟩ =
      ([("/r/p.md".data, [])], zkC5, some .otherErr) :=
  c4_add_uniqueness.1 [] [("/r/p.md".data, [])] zkC5 ⟨metaW, []⟩ (by decide)

/-- C7: the claim says a file whose header fails to parse changes no index
entry and does not prevent the remaining files of the pass from being
processed.  Evaluating the embedding at the failing input: an empty file
makes parse_yaml panic, aborting the whole sync pass, so the well-formed
registered note behind it is never processed — although on its own that
note would be processed (second conjunct). -/
theorem c7_sync_aborts_on_unparsable_file :
    Zettelkasten.sync zkC7
      (FsEntries.file "a.md".data [] (FsEntries.file "b.md".data goodC7 .nil)) = none ∧
    Zettelkasten.sync zkC7 (FsEntries.file "b.md".data goodC7 .nil) =
      some { zkC7 with contents := { zkC7.contents with
        zettels := [("x".data, { metaC7 with path := "b.md".data })] } } := by
  decide

/-- C2: the claim says rendering is byte-deterministic with the template's
key order preserved.  Counterexample: the intermediate HashMap of as_string
is unordered, so two legal hash-seed iteration orders of the same template,
metadata and body yield different byte outputs (and neither order obligation
holds). -/
theorem c2_two_orders_differ :
    AsStringOut tplC2 metaW ['\n'] "---\na: x\nb: y\n---\n\n".data ∧
    AsStringOut tplC2 metaW ['\n'] "---\nb: y\na: x\n---\n\n".data ∧
    "---\na: x\nb: y\n---\n\n".data ≠ "---\nb: y\na: x\n---\n\n".data := by
  refine ⟨⟨["a".data, "b".data], by decide, by decide⟩,
    ⟨["b".data, "a".data], by decide, by decide⟩, by decide⟩

/-- C1: the claim quantifies over every body; counterexample: as_string
appends the body directly after the closing delimiter token, so a body that
does not start with a newline corrupts the closing delimiter line and
parse_yaml fails with the missing-final-delimiter error. -/
theorem c1_body_counterexample :
    AsStringOut defaultTemplate metaW "x".data
      "---\ntitle: My Note\nid: abc123\ndate: 2015-05-15\n---x\n".data ∧
    frontmatter.parse_yaml
      "---\ntitle: My Note\nid: abc123\ndate: 2015-05-15\n---x\n".data =
      .err .missingFinalDelimiter := by
  refine ⟨⟨["title".data, "id".data, "date".data], by decide, by decide⟩, by decide⟩

/-! ### Sync machinery lemmas -/

theorem lookupS_none_updZettels (id p : Str) (t : Option Str) :
    ∀ l : List (Str × ZettelMeta), lookupS id l = none → updZettels id p t l = l := by
  intro l
  induction l with
  | nil => intro _; rfl
  | cons km r ih =>
    intro h
    have h' : (if km.1 = id then some km.2 else lookupS id r) = none := h
    by_cases hk : km.1 = id
    · rw [if_pos hk] at h'; cases h'
    · rw [if_neg hk] at h'
      have hr := ih h'
      show (if km.1 = id then (km.1, updMeta km.2 p t) else km) :: updZettels id p t r = km :: r
      rw [if_neg hk, hr]

theorem updZk_self (zk : Zettelkasten) :
    { zk with contents := { zk.contents with zettels := zk.contents.zettels } } = zk := rfl

theorem sync_file_eq_runAct (zk : Zettelkasten) (rel : List Str) (c : Str) :
    Zettelkasten.sync_file zk rel c = runAct zk (actOfFile rel c) := by
  unfold Zettelkasten.sync_file actOfFile
  cases hp : frontmatter.parse_yaml c with
  | panic => rfl
  | err e => rfl
  | ok fm =>
    dsimp only
    cases hid : lookupS "id".data fm with
    | none => rfl
    | some v =>
      dsimp only
      cases hv : v.asStr with
      | none => rfl
      | some id =>
        dsimp only
        cases hz : lookupS id zk.contents.zettels with
        | none =>
          dsimp only [runAct, updZk]
          rw [lookupS_none_updZettels id (relString rel)
            ((lookupS "title".data fm).bind YVal.asStr) zk.contents.zettels hz]
        | some m => rfl

theorem runActs_append (acts bs : List Act) : ∀ zk : Zettelkasten,
    runActs zk (acts ++ bs) = (runActs zk acts).bind (fun z => runActs z bs) := by
  induction acts with
  | nil => intro zk; rfl
  | cons a rest ih =>
    intro zk
    have h1 : runActs zk ((a :: rest) ++ bs) =
        match runAct zk a with
        | none => none
        | some z => runActs z (rest ++ bs) := rfl
    have h2 : runActs zk (a :: rest) =
        match runAct zk a with
        | none => none
        | some z => runActs z rest := rfl
    rw [h1, h2]
    cases hr : runAct zk a with
    | none => rfl
    | some z => exact ih z

theorem sync_dir_eq_runActs (t : FsEntries) : ∀ (zk : Zettelkasten) (rel : List Str),
    Zettelkasten.sync_dir zk rel t = runActs zk (dirActs rel t) := by
  induction t with
  | nil => intro zk rel; rfl
  | file n c rest ih =>
    intro zk rel
    unfold Zettelkasten.sync_dir dirActs
    by_cases h : strStarts "_zettel".data n = true
    · rw [if_pos h, if_pos h, List.nil_append]
      exact ih zk rel
    · rw [if_neg h, if_neg h, List.singleton_append, sync_file_eq_runAct]
      have hrw : runActs zk (actOfFile (rel ++ [n]) c :: dirActs rel rest) =
          match runAct zk (actOfFile (rel ++ [n]) c) with
          | none => none
          | some z => runActs z (dirActs rel rest) := rfl
      rw [hrw]
      cases hr : runAct zk (actOfFile (rel ++ [n]) c) with
      | none => rfl
      | some z => exact ih z rel
  | dir n es rest ih_es ih_rest =>
    intro zk rel
    unfold Zettelkasten.sync_dir dirActs
    by_cases h : strStarts "_zettel".data n = true
    · rw [if_pos h, if_pos h, List.nil_append]
      exact ih_rest zk rel
    · rw [if_neg h, if_neg h, ih_es zk (rel ++ [n]), runActs_append]
      cases hr : runActs zk (dirActs (rel ++ [n]) es) with
      | none => rfl
      | some z => exact ih_rest z rel

theorem runActs_eq_applyActs (acts : List Act) : ∀ zk : Zettelkasten,
    runActs zk acts = if hasPanic acts = true then none else some (applyActs acts zk) := by
  induction acts with
  | nil => intro zk; rfl
  | cons a rest ih =>
    intro zk
    cases a with
    | panic => rfl
    | skip =>
      have h1 : runActs zk (Act.skip :: rest) = runActs zk rest := rfl
      have h2 : hasPanic (Act.skip :: rest) = hasPanic rest := rfl
      have h3 : applyActs (Act.skip :: rest) zk = applyActs rest zk := rfl
      rw [h1, h2, h3]
      exact ih zk
    | upd id p t =>
      have h1 : runActs zk (Act.upd id p t :: rest) = runActs (updZk zk id p t) rest := rfl
      have h2 : hasPanic (Act.upd id p t :: rest) = hasPanic rest := rfl
      have h3 : applyActs (Act.upd id p t :: rest) zk =
          applyActs rest (updZk zk id p t) := rfl
      rw [h1, h2, h3]
      exact ih (updZk zk id p t)

theorem updZettels_eq (id p : Str) (t : Option Str) (l : List (Str × ZettelMeta)) :
    updZettels id p t l = l.map (fun km => (km.1, metaStep km.1 km.2 (Act.upd id p t))) := by
  induction l with
  | nil => rfl
  | cons km r ih =>
    show (if km.1 = id then (km.1, updMeta km.2 p t) else km) ::
        updZettels id p t r = ((km.1, metaStep km.1 km.2 (Act.upd id p t)) :: _)
    rw [ih]
    by_cases hk : km.1 = id
    · have h2 : metaStep km.1 km.2 (Act.upd id p t) = updMeta km.2 p t := by
        show (if km.1 = id then updMeta km.2 p t else km.2) = _
        rw [if_pos hk]
      rw [if_pos hk, h2]
    · have h2 : metaStep km.1 km.2 (Act.upd id p t) = km.2 := by
        show (if km.1 = id then updMeta km.2 p t else km.2) = _
        rw [if_neg hk]
      rw [if_neg hk, h2]

theorem lookupS_map_entries {β : Type} (g : Str → β → β) (k : Str) :
    ∀ l : List (Str × β),
      lookupS k (l.map (fun km => (km.1, g km.1 km.2))) = (lookupS k l).map (g k) := by
  intro l
  induction l with
  | nil => rfl
  | cons km r ih =>
    show (if km.1 = k then some (g km.1 km.2) else _) = _
    by_cases h : km.1 = k
    · subst h
      rw [if_pos rfl]
      show _ = (if km.1 = km.1 then some km.2 else lookupS km.1 r).map (g km.1)
      rw [if_pos rfl]
      rfl
    · rw [if_neg h, ih]
      show _ = (if km.1 = k then some km.2 else lookupS k r).map (g k)
      rw [if_neg h]

theorem map_entries_comp {β : Type} (g h : Str → β → β) (l : List (Str × β)) :
    (l.map (fun km => (km.1, g km.1 km.2))).map (fun km => (km.1, h km.1 km.2)) =
      l.map (fun km => (km.1, h km.1 (g km.1 km.2))) := by
  induction l with
  | nil => rfl
  | cons km r ih =>
    simp only [List.map_cons]
    rw [ih]

theorem applyActs_char (acts : List Act) : ∀ zk : Zettelkasten,
    applyActs acts zk = { zk with contents := { zk.contents with
      zettels := zk.contents.zettels.map (fun km => (km.1, metaFold km.1 acts km.2)) } } := by
  induction acts with
  | nil =>
    intro zk
    have h1 : zk.contents.zettels.map (fun km => (km.1, metaFold km.1 [] km.2)) =
        zk.contents.zettels := List.map_id zk.contents.zettels
    show zk = _
    rw [h1]
  | cons a rest ih =>
    intro zk
    have h0 : applyActs (a :: rest) zk = applyActs rest (applyAct zk a) := rfl
    rw [h0, ih]
    cases a with
    | panic => rfl
    | skip => rfl
    | upd id p t =>
      show { zk with contents := { zk.contents with zettels :=
          (List.map (fun km : Str × ZettelMeta => (km.1, metaFold km.1 rest km.2))
            (updZettels id p t zk.contents.zettels)) } } = _
      rw [updZettels_eq,
        map_entries_comp (fun k m => metaStep k m (Act.upd id p t))
          (fun k m => metaFold k rest m) zk.contents.zettels]
      rfl

theorem lastSome_cons (f : Act → Option Str) (a : Act) (rest : List Act) (acc : Option Str) :
    lastSome f (a :: rest) acc =
      lastSome f rest (match f a with | some b => some b | none => acc) := rfl

theorem lastSome_acc (f : Act → Option Str) (acts : List Act) : ∀ acc : Option Str,
    lastSome f acts acc =
      match lastSome f acts none with
      | some b => some b
      | none => acc := by
  induction acts with
  | nil => intro acc; rfl
  | cons a rest ih =>
    intro acc
    cases hf : f a with
    | some b =>
      rw [lastSome_cons, lastSome_cons, hf]
      rw [ih (some b)]
      cases lastSome f rest none <;> rfl
    | none =>
      rw [lastSome_cons, lastSome_cons, hf]
      exact ih acc

theorem metaFold_char (k : Str) (acts : List Act) : ∀ m : ZettelMeta,
    metaFold k acts m =
      { m with path := (lastSome (pathSel k) acts none).getD m.path,
               title := (lastSome (titleSel k) acts none).getD m.title } := by
  induction acts with
  | nil =>
    intro m
    cases m
    rfl
  | cons a rest ih =>
    intro m
    have h0 : metaFold k (a :: rest) m = metaFold k rest (metaStep k m a) := rfl
    rw [h0, ih (metaStep k m a),
      lastSome_cons (pathSel k) a rest none, lastSome_cons (titleSel k) a rest none]
    cases a with
    | panic => rfl
    | skip => rfl
    | upd id p t =>
      by_cases hk : k = id
      · have hps : pathSel k (Act.upd id p t) = some p := by
          show (if k = id then some p else none) = some p
          rw [if_pos hk]
        have hms : metaStep k m (Act.upd id p t) = updMeta m p t := by
          show (if k = id then updMeta m p t else m) = _
          rw [if_pos hk]
        cases t with
        | none =>
          have hts : titleSel k (Act.upd id p none) = none := rfl
          rw [hms, hps, hts, lastSome_acc (pathSel k) rest (some p)]
          cases hlp : lastSome (pathSel k) rest none <;>
            cases hlt : lastSome (titleSel k) rest none <;>
            (obtain ⟨mc, mm, mt, mp, mi⟩ := m; rfl)
        | some tt =>
          have hts : titleSel k (Act.upd id p (some tt)) = some tt := by
            show (if k = id then some tt else none) = some tt
            rw [if_pos hk]
          rw [hms, hps, hts, lastSome_acc (pathSel k) rest (some p),
            lastSome_acc (titleSel k) rest (some tt)]
          cases hlp : lastSome (pathSel k) rest none <;>
            cases hlt : lastSome (titleSel k) rest none <;>
            (obtain ⟨mc, mm, mt, mp, mi⟩ := m; rfl)
      · have hps : pathSel k (Act.upd id p t) = none := by
          show (if k = id then some p else none) = none
          rw [if_neg hk]
        have hts : titleSel k (Act.upd id p t) = none := by
          cases t with
          | none => rfl
          | some tt =>
            show (if k = id then some tt else none) = none
            rw [if_neg hk]
        have hms : metaStep k m (Act.upd id p t) = m := by
          show (if k = id then updMeta m p t else m) = m
          rw [if_neg hk]
        rw [hms, hps, hts]

theorem metaFold_idem (k : Str) (acts : List Act) (m : ZettelMeta) :
    metaFold k acts (metaFold k acts m) = metaFold k acts m := by
  rw [metaFold_char k acts m, metaFold_char k acts]
  cases hlp : lastSome (pathSel k) acts none <;>
    cases hlt : lastSome (titleSel k) acts none <;>
    (obtain ⟨mc, mm, mt, mp, mi⟩ := m; rfl)

theorem applyActs_idem (acts : List Act) (zk : Zettelkasten) :
    applyActs acts (applyActs acts zk) = applyActs acts zk := by
  rw [applyActs_char acts zk, applyActs_char acts]
  show { zk with contents := { zk.contents with zettels :=
      (List.map (fun km : Str × ZettelMeta => (km.1, metaFold km.1 acts km.2))
        (List.map (fun km : Str × ZettelMeta => (km.1, metaFold km.1 acts km.2))
          zk.contents.zettels)) } } =
    { zk with contents := { zk.contents with zettels :=
      (List.map (fun km : Str × ZettelMeta => (km.1, metaFold km.1 acts km.2))
        zk.contents.zettels) } }
  rw [map_entries_comp (fun k m => metaFold k acts m) (fun k m => metaFold k acts m)
    zk.contents.zettels]
  have h : ∀ l : List (Str × ZettelMeta),
      l.map (fun km => (km.1, metaFold km.1 acts (metaFold km.1 acts km.2))) =
        l.map (fun km => (km.1, metaFold km.1 acts km.2)) := by
    intro l
    induction l with
    | nil => rfl
    | cons km r ihl => simp only [List.map_cons, metaFold_idem, ihl]
  rw [h]

theorem runActs_frame (acts : List Act) (zk zk' : Zettelkasten)
    (h : runActs zk acts = some zk') :
    fieldsFrame zk.contents.zettels zk'.contents.zettels := by
  rw [runActs_eq_applyActs] at h
  by_cases hp : hasPanic acts = true
  · rw [if_pos hp] at h; cases h
  · rw [if_neg hp] at h
    injection h with h
    subst h
    intro k m' hm'
    have hz : (applyActs acts zk).contents.zettels =
        zk.contents.zettels.map (fun km => (km.1, metaFold km.1 acts km.2)) := by
      rw [applyActs_char]
    rw [hz, lookupS_map_entries (fun k m => metaFold k acts m) k] at hm'
    cases hm : lookupS k zk.contents.zettels with
    | none => rw [hm] at hm'; cases hm'
    | some m0 =>
      rw [hm] at hm'
      injection hm' with hm'
      subst hm'
      refine ⟨m0, rfl, ?_, ?_, ?_⟩ <;> dsimp only <;> rw [metaFold_char]

/-- C8: sync is idempotent: with the file tree unchanged, running sync a
second time leaves the in-memory index exactly as the first run left it (a
run that panics yields no state either time, modelled by bind on none). -/
theorem c8_sync_idempotent (zk : Zettelkasten) (tree : FsEntries) :
    (Zettelkasten.sync zk tree).bind (fun z => Zettelkasten.sync z tree) =
      Zettelkasten.sync zk tree := by
  unfold Zettelkasten.sync
  simp only [sync_dir_eq_runActs, runActs_eq_applyActs]
  by_cases h : hasPanic (dirActs [] tree) = true
  · rw [if_pos h]
    rfl
  · rw [if_neg h]
    show (if hasPanic (dirActs [] tree) = true then none
      else some (applyActs (dirActs [] tree) (applyActs (dirActs [] tree) zk))) = _
    rw [if_neg h, applyActs_idem]

/-- C6: for a file whose header parses and whose id is registered, sync_file
overwrites exactly the stored path (with the root-relative file path) and,
when the header carries a string title, the stored title; created, modified
and id of every entry are untouched by sync_file and by a whole sync pass. -/
theorem c6_sync_frame :
    (∀ (zk : Zettelkasten) (rel : List Str) (content : Str) (zk' : Zettelkasten),
      Zettelkasten.sync_file zk rel content = some zk' →
      fieldsFrame zk.contents.zettels zk'.contents.zettels) ∧
    (∀ (zk : Zettelkasten) (rel : List Str) (content : Str) (zk' : Zettelkasten)
        (fm : List (Str × YVal)) (id : Str) (m : ZettelMeta),
      Zettelkasten.sync_file zk rel content = some zk' →
      frontmatter.parse_yaml content = .ok fm →
      (lookupS "id".data fm).bind YVal.asStr = some id →
      lookupS id zk.contents.zettels = some m →
      lookupS id zk'.contents.zettels =
        some (updMeta m (relString rel) ((lookupS "title".data fm).bind YVal.asStr))) ∧
    (∀ (zk : Zettelkasten) (tree : FsEntries) (zk' : Zettelkasten),
      Zettelkasten.sync zk tree = some zk' →
      fieldsFrame zk.contents.zettels zk'.contents.zettels) := by
  refine ⟨?_, ?_, ?_⟩
  · intro zk rel content zk' h
    rw [sync_file_eq_runAct] at h
    have h1 : runActs zk [actOfFile rel content] = some zk' := by
      show (match runAct zk (actOfFile rel content) with
        | none => none
        | some z => runActs z []) = some zk'
      rw [h]
      rfl
    exact runActs_frame [actOfFile rel content] zk zk' h1
  · intro zk rel content zk' fm id m hs hp hb hm
    rw [sync_file_eq_runAct] at hs
    obtain ⟨v, hv1, hv2⟩ : ∃ v, lookupS "id".data fm = some v ∧ v.asStr = some id := by
      cases hlv : lookupS "id".data fm with
      | none => rw [hlv] at hb; cases hb
      | some v => rw [hlv] at hb; exact ⟨v, rfl, hb⟩
    have ha : actOfFile rel content =
        Act.upd id (relString rel) ((lookupS "title".data fm).bind YVal.asStr) := by
      unfold actOfFile
      rw [hp]
      dsimp only
      rw [hv1]
      dsimp only
      rw [hv2]
    rw [ha] at hs
    injection hs with hs
    subst hs
    show lookupS id (updZettels id (relString rel)
      ((lookupS "title".data fm).bind YVal.asStr) zk.contents.zettels) = _
    rw [updZettels_eq, lookupS_map_entries
      (fun k mm => metaStep k mm
        (Act.upd id (relString rel) ((lookupS "title".data fm).bind YVal.asStr))) id,
      hm]
    show some (if id = id then updMeta m (relString rel)
      ((lookupS "title".data fm).bind YVal.asStr) else m) = _
    rw [if_pos rfl]
  · intro zk tree zk' h
    unfold Zettelkasten.sync at h
    rw [sync_dir_eq_runActs] at h
    exact runActs_frame (dirActs [] tree) zk zk' h

theorem c6_sync_frame_witness :
    lookupS "x".data
        ({ zkC7 with contents := { zkC7.contents with
          zettels := [("x".data, { metaC7 with path := "b.md".data })] } } :
            Zettelkasten).contents.zettels =
      some (updMeta metaC7 (relString ["b.md".data])
        ((lookupS "title".data [("id".data, YVal.str "x".data)]).bind YVal.asStr)) :=
  c6_sync_frame.2.1 zkC7 ["b.md".data] goodC7
    { zkC7 with contents := { zkC7.contents with
        zettels := [("x".data, { metaC7 with path := "b.md".data })] } }
    [("id".data, YVal.str "x".data)] "x".data metaC7
    (by decide) (by decide) (by decide) (by decide)

/-! ### Line-splitting lemmas for the round-trip property -/

theorem splitNl_ne_nil : ∀ s : Str, splitNl s ≠ [] := by
  intro s
  cases s with
  | nil => simp [splitNl]
  | cons c cs =>
    cases hr : splitNl cs <;> by_cases h : c = '\n' <;> simp [splitNl, h, hr]

theorem splitNl_append (a b : Str) (h : '\n' ∉ a) :
    splitNl (a ++ '\n' :: b) = a :: splitNl b := by
  induction a with
  | nil => simp [splitNl]
  | cons c a' ih =>
    have hc : ¬ c = '\n' := fun hh => h (hh ▸ List.mem_cons_self c a')
    have h' : '\n' ∉ a' := fun hm => h (List.mem_cons_of_mem c hm)
    simp [splitNl, ih h', hc]

theorem stripCR_of_clean (a : Str) (h : ∀ c ∈ a, c ≠ '\r') : stripCR a = a := by
  unfold stripCR
  cases hl : a.getLast? with
  | none => simp
  | some c =>
    have hc : c ≠ '\r' := h c (List.mem_of_getLast?_eq_some hl)
    rw [if_neg]
    intro hh
    exact hc (by injection hh)

theorem rust_lines_append (a b : Str) (ha : ∀ c ∈ a, c ≠ '\n' ∧ c ≠ '\r') :
    rust_lines (a ++ '\n' :: b) = a :: rust_lines b := by
  have hnl : '\n' ∉ a := fun hm => (ha '\n' hm).1 rfl
  have hcr : ∀ c ∈ a, c ≠ '\r' := fun c hc => (ha c hc).2
  unfold rust_lines
  rw [splitNl_append a b hnl]
  obtain ⟨p, ps, hps⟩ : ∃ p ps, splitNl b = p :: ps := by
    cases hsb : splitNl b with
    | nil => exact absurd hsb (splitNl_ne_nil b)
    | cons p ps => exact ⟨p, ps, rfl⟩
  rw [hps]
  dsimp only
  rw [List.dropLast_cons₂, List.map_cons, List.getLast?_cons_cons,
    stripCR_of_clean a hcr, List.cons_append]

theorem joinSep_cons_cons (sep : Char) (l l₂ : Str) (ls : List Str) :
    joinSep sep (l :: l₂ :: ls) = l ++ sep :: joinSep sep (l₂ :: ls) := rfl

theorem rust_lines_join (L : List Str) (t : Str) (hne : L ≠ [])
    (hL : ∀ l ∈ L, ∀ c ∈ l, c ≠ '\n' ∧ c ≠ '\r') :
    rust_lines (joinSep '\n' L ++ '\n' :: t) = L ++ rust_lines t := by
  induction L with
  | nil => exact absurd rfl hne
  | cons l rest ih =>
    cases rest with
    | nil =>
      show rust_lines (l ++ '\n' :: t) = l :: rust_lines t
      exact rust_lines_append l t (hL l (List.mem_cons_self l []))
    | cons l₂ ls =>
      rw [joinSep_cons_cons, List.append_assoc, List.cons_append]
      rw [rust_lines_append l _ (hL l (List.mem_cons_self l (l₂ :: ls)))]
      rw [ih (by simp) (fun x hx => hL x (List.mem_cons_of_mem l hx))]
      rfl

theorem untilDelim_spec (L r : List Str) (h : ∀ l ∈ L, l ≠ dashes) :
    untilDelim (L ++ dashes :: r) = some (L, r) := by
  induction L with
  | nil => simp [untilDelim]
  | cons l rest ih =>
    have hl : ¬ l = dashes := h l (List.mem_cons_self l rest)
    show (if l = dashes then some ([], rest ++ dashes :: r)
      else (untilDelim (rest ++ dashes :: r)).map (fun p => (l :: p.1, p.2))) = _
    rw [if_neg hl, ih (fun x hx => h x (List.mem_cons_of_mem l hx))]
    rfl

/-! ### Plain-scalar lemmas -/

theorem isDigit_ne (c : Char) (h : c.isDigit = true) :
    c ≠ '\n' ∧ c ≠ '\r' ∧ c ≠ ':' ∧ c ≠ '-' ∧ c ≠ '+' := by
  refine ⟨?_, ?_, ?_, ?_, ?_⟩ <;> intro hh <;> subst hh <;> exact absurd h (by decide)

theorem ofNat_digit_isDigit (k : Nat) (h : k < 10) :
    (Char.ofNat (48 + k)).isDigit = true := by
  interval_cases k <;> decide

theorem natDigitsAux_all_digit : ∀ (fuel n : Nat), ∀ c ∈ natDigitsAux fuel n, c.isDigit = true := by
  intro fuel
  induction fuel with
  | zero => intro n c hc; simp [natDigitsAux] at hc
  | succ f ih =>
    intro n c hc
    by_cases h : n < 10
    · simp only [natDigitsAux, if_pos h, List.mem_singleton] at hc
      subst hc
      exact ofNat_digit_isDigit n h
    · simp only [natDigitsAux, if_neg h, List.mem_append, List.mem_singleton] at hc
      rcases hc with hc | hc
      · exact ih (n / 10) c hc
      · subst hc
        exact ofNat_digit_isDigit (n % 10) (Nat.mod_lt n (by omega))

theorem natDigits_all_digit (n : Nat) : ∀ c ∈ natDigits n, c.isDigit = true :=
  natDigitsAux_all_digit (n + 1) n

theorem natDigits_ne_nil (n : Nat) : natDigits n ≠ [] := by
  unfold natDigits natDigitsAux
  by_cases h : n < 10 <;> simp [h]

theorem pad_all_digit (w n : Nat) : ∀ c ∈ pad w n, c.isDigit = true := by
  intro c hc
  rcases List.mem_append.mp hc with hc | hc
  · rw [List.eq_of_mem_replicate hc]
    decide
  · exact natDigits_all_digit n c hc

theorem pad_head_digit (w n : Nat) : ∃ c rest, pad w n = c :: rest ∧ c.isDigit = true := by
  cases hp : pad w n with
  | nil =>
    exfalso
    unfold pad at hp
    exact natDigits_ne_nil n (List.append_eq_nil.mp hp).2
  | cons c rest =>
    refine ⟨c, rest, rfl, ?_⟩
    have : c ∈ pad w n := by rw [hp]; exact List.mem_cons_self c rest
    exact pad_all_digit w n c this

theorem pad_length (w n : Nat) : w ≤ (pad w n).length := by
  unfold pad
  rw [List.length_append, List.length_replicate]
  omega

theorem formatYmd_length (d : ChronoDate) : 10 ≤ (formatYmd d).length := by
  unfold formatYmd
  have h1 := pad_length 4 d.year
  have h2 := pad_length 2 d.month
  have h3 := pad_length 2 d.day
  simp only [List.length_append, List.length_cons]
  omega

theorem formatYmd_clean (d : ChronoDate) : ∀ c ∈ formatYmd d, c ≠ '\n' ∧ c ≠ '\r' := by
  intro c hc
  unfold formatYmd at hc
  rcases List.mem_append.mp hc with hc | hc
  · have := isDigit_ne c (pad_all_digit 4 d.year c hc)
    exact ⟨this.1, this.2.1⟩
  · rcases List.mem_cons.mp hc with hc | hc
    · subst hc; exact ⟨by decide, by decide⟩
    · rcases List.mem_append.mp hc with hc | hc
      · have := isDigit_ne c (pad_all_digit 2 d.month c hc)
        exact ⟨this.1, this.2.1⟩
      · rcases List.mem_cons.mp hc with hc | hc
        · subst hc; exact ⟨by decide, by decide⟩
        · have := isDigit_ne c (pad_all_digit 2 d.day c hc)
          exact ⟨this.1, this.2.1⟩

theorem formatYmd_ne_of_short (d : ChronoDate) (s : Str) (hs : s.length < 10) :
    formatYmd d ≠ s := by
  intro h
  have h10 := formatYmd_length d
  rw [h] at h10
  omega

theorem formatYmd_not_int (d : ChronoDate) : isIntLit (formatYmd d) = false := by
  obtain ⟨c, rest, hcr, hc⟩ := pad_head_digit 4 d.year
  have hform : formatYmd d = c :: (rest ++ '-' :: (pad 2 d.month ++ '-' :: pad 2 d.day)) := by
    unfold formatYmd
    rw [hcr]
    rfl
  rw [hform]
  have hdig := isDigit_ne c hc
  show (if c = '-' ∨ c = '+' then _ else (c :: (rest ++ '-' :: _)).all Char.isDigit) = false
  rw [if_neg (by rintro (h | h) <;> [exact hdig.2.2.2.1 h; exact hdig.2.2.2.2 h])]
  cases hall : (c :: (rest ++ '-' :: (pad 2 d.month ++ '-' :: pad 2 d.day))).all Char.isDigit with
  | false => rfl
  | true =>
    exfalso
    have hmem : '-' ∈ c :: (rest ++ '-' :: (pad 2 d.month ++ '-' :: pad 2 d.day)) :=
      List.mem_cons_of_mem c (List.mem_append_right rest (List.mem_cons_self '-' _))
    have := List.all_eq_true.mp hall '-' hmem
    exact absurd this (by decide)

theorem formatYmd_classify (d : ChronoDate) :
    classify (formatYmd d) = .str (formatYmd d) := by
  unfold classify
  rw [if_neg (formatYmd_ne_of_short d "true".data (by decide)),
    if_neg (formatYmd_ne_of_short d "false".data (by decide)),
    if_neg (by
      rintro (h | h | h)
      · exact formatYmd_ne_of_short d [] (by decide) h
      · exact formatYmd_ne_of_short d "~".data (by decide) h
      · exact formatYmd_ne_of_short d "null".data (by decide) h),
    if_neg (by rw [formatYmd_not_int d]; intro h; cases h)]

theorem SimpleVal_classify (v : Str) (h : SimpleVal v) : classify v = .str v := by
  obtain ⟨h0, hchar, ht, hf, hn, htl, hint, hsp⟩ := h
  unfold classify
  rw [if_neg ht, if_neg hf,
    if_neg (by rintro (hh | hh | hh); exacts [h0 hh, htl hh, hn hh]),
    if_neg (by rw [hint]; intro hh; cases hh)]

theorem SimpleVal_clean (v : Str) (h : SimpleVal v) : ∀ c ∈ v, c ≠ '\n' ∧ c ≠ '\r' := by
  intro c hc
  obtain ⟨-, hchar, -⟩ := h
  constructor <;> intro hh <;> subst hh <;>
    rcases hchar _ hc with ha | ha | ha | ha <;> exact absurd ha (by decide)

theorem GoodVal_of_simple (v : Str) (h : SimpleVal v) : GoodVal v :=
  ⟨SimpleVal_classify v h, SimpleVal_clean v h⟩

theorem GoodVal_formatYmd (d : ChronoDate) : GoodVal (formatYmd d) :=
  ⟨formatYmd_classify d, formatYmd_clean d⟩

theorem SimpleKey_no_colon (k : Str) (h : SimpleKey k) : ':' ∉ k := by
  intro hm
  rcases h.2 ':' hm with ha | ha | ha <;> exact absurd ha (by decide)

theorem SimpleKey_clean (k : Str) (h : SimpleKey k) : ∀ c ∈ k, c ≠ '\n' ∧ c ≠ '\r' := by
  intro c hc
  constructor <;> intro hh <;> subst hh <;>
    rcases h.2 _ hc with ha | ha | ha <;> exact absurd ha (by decide)

theorem splitKV_spec (v : Str) : ∀ k : Str, ':' ∉ k →
    splitKV (k ++ ':' :: ' ' :: v) = some (k, v) := by
  intro k
  induction k with
  | nil =>
    intro _
    show (if ':' = ':' ∧ ((' ' :: v).head? = some ' ') then some ([], (' ' :: v).tail)
      else _) = _
    rw [if_pos ⟨rfl, rfl⟩]
    rfl
  | cons c k' ih =>
    intro hk
    have hc : ¬(c = ':') := fun hh => hk (hh ▸ List.mem_cons_self c k')
    show (if c = ':' ∧ ((k' ++ ':' :: ' ' :: v).head? = some ' ')
        then some ([], (k' ++ ':' :: ' ' :: v).tail)
      else (splitKV (k' ++ ':' :: ' ' :: v)).map (fun p => (c :: p.1, p.2))) = _
    rw [if_neg (fun hh => hc hh.1), ih (fun hm => hk (List.mem_cons_of_mem c hm))]
    rfl

theorem lineOf_ne_dashes (kv : Str × Str) : lineOf kv ≠ dashes := by
  intro hh
  have hm : ':' ∈ dashes := by
    rw [← hh]
    exact List.mem_append_right kv.1 (List.mem_cons_self ':' _)
  exact absurd hm (by decide)

theorem yamlParseLines_lines : ∀ fm : List (Str × Str), (∀ kv ∈ fm, ':' ∉ kv.1) →
    yamlParseLines (fm.map lineOf) = some (fm.map (fun kv => (kv.1, classify kv.2))) := by
  intro fm
  induction fm with
  | nil => intro _; rfl
  | cons kv rest ih =>
    intro h
    have hne : ¬(lineOf kv = []) := by
      unfold lineOf
      simp
    show (if lineOf kv = [] then yamlParseLines (rest.map lineOf)
      else match splitKV (lineOf kv) with
        | none => none
        | some kv' => (yamlParseLines (rest.map lineOf)).map
            (fun m => (kv'.1, classify kv'.2) :: m)) = _
    rw [if_neg hne,
      show splitKV (lineOf kv) = some (kv.1, kv.2) from
        splitKV_spec kv.2 kv.1 (h kv (List.mem_cons_self kv rest)),
      ih (fun x hx => h x (List.mem_cons_of_mem kv hx))]
    rfl

/-! ### Lookup lemmas -/

theorem lookupS_mem {β : Type} (k : Str) (v : β) :
    ∀ l : List (Str × β), lookupS k l = some v → (k, v) ∈ l := by
  intro l
  induction l with
  | nil => intro h; cases h
  | cons kv r ih =>
    intro h
    by_cases hk : kv.1 = k
    · have h' : some kv.2 = some v := by
        rw [← h]
        show _ = (if kv.1 = k then some kv.2 else lookupS k r)
        rw [if_pos hk]
      injection h' with h'
      have hkv : kv = (k, v) := by rw [← hk, ← h']
      rw [hkv]
      exact List.mem_cons_self (k, v) r
    · have h' : lookupS k r = some v := by
        rw [← h]
        show _ = (if kv.1 = k then some kv.2 else lookupS k r)
        rw [if_neg hk]
      exact List.mem_cons_of_mem kv (ih h')

theorem lookupS_of_mem_nodup {β : Type} (k : Str) (v : β) :
    ∀ l : List (Str × β), (l.map Prod.fst).Nodup → (k, v) ∈ l → lookupS k l = some v := by
  intro l
  induction l with
  | nil => intro _ hm; cases hm
  | cons kv r ih =>
    intro hnd hm
    rw [List.map_cons, List.nodup_cons] at hnd
    rcases List.mem_cons.mp hm with hm | hm
    · rw [← hm]
      show (if k = k then some v else _) = some v
      rw [if_pos rfl]
    · have hk : kv.1 ≠ k := by
        intro hh
        exact hnd.1 (hh ▸ List.mem_map.mpr ⟨(k, v), hm, rfl⟩)
      show (if kv.1 = k then some kv.2 else lookupS k r) = some v
      rw [if_neg hk]
      exact ih hnd.2 hm

theorem lookupS_isSome_of_mem_keys {β : Type} (k : Str) :
    ∀ l : List (Str × β), k ∈ l.map Prod.fst → (lookupS k l).isSome = true := by
  intro l
  induction l with
  | nil => intro h; cases h
  | cons kv r ih =>
    intro h
    rw [List.map_cons] at h
    by_cases hk : kv.1 = k
    · show ((if kv.1 = k then some kv.2 else lookupS k r)).isSome = true
      rw [if_pos hk]
      rfl
    · show ((if kv.1 = k then some kv.2 else lookupS k r)).isSome = true
      rw [if_neg hk]
      rcases List.mem_cons.mp h with hh | hh
      · exact absurd hh.symm hk
      · exact ih hh

theorem lookupS_map_val {β γ : Type} (g : β → γ) (k : Str) :
    ∀ l : List (Str × β),
      lookupS k (l.map (fun kv => (kv.1, g kv.2))) = (lookupS k l).map g := by
  intro l
  induction l with
  | nil => rfl
  | cons kv r ih =>
    show (if kv.1 = k then some (g kv.2) else _) = _
    by_cases hk : kv.1 = k
    · rw [if_pos hk]
      show _ = (if kv.1 = k then some kv.2 else lookupS k r).map g
      rw [if_pos hk]
      rfl
    · rw [if_neg hk, ih]
      show _ = (if kv.1 = k then some kv.2 else lookupS k r).map g
      rw [if_neg hk]

theorem lookupS_map_keyed {γ : Type} (g : Str → γ) (k : Str) :
    ∀ o : List Str, o.Nodup → k ∈ o →
      lookupS k (o.map (fun x => (x, g x))) = some (g k) := by
  intro o
  induction o with
  | nil => intro _ hm; cases hm
  | cons x os ih =>
    intro hnd hm
    rw [List.nodup_cons] at hnd
    by_cases hk : x = k
    · show (if x = k then some (g x) else lookupS k (os.map (fun x => (x, g x)))) =
        some (g k)
      rw [if_pos hk, hk]
    · show (if x = k then some (g x) else lookupS k (os.map (fun x => (x, g x)))) =
        some (g k)
      rw [if_neg hk]
      rcases List.mem_cons.mp hm with hh | hh
      · exact absurd hh.symm hk
      · exact ih hnd.2 hh

/-! ### Rendering lemmas -/

theorem refValue_title (meta : ZettelMeta) : refValue meta "@title".data = .ok meta.title := rfl

theorem refValue_id (meta : ZettelMeta) : refValue meta "@id".data = .ok meta.id := rfl

theorem refValue_created (meta : ZettelMeta) :
    refValue meta "@created".data = .ok (formatYmd meta.created) := rfl

theorem refValue_rv (meta : ZettelMeta) (v : Str) (hv : RV v)
    (ht : SimpleVal meta.title) (hi : SimpleVal meta.id) :
    ∃ w, refValue meta v = .ok w ∧ GoodVal w := by
  rcases hv with h | h | h | ⟨hh, hs⟩
  · subst h; exact ⟨meta.title, refValue_title meta, GoodVal_of_simple _ ht⟩
  · subst h; exact ⟨meta.id, refValue_id meta, GoodVal_of_simple _ hi⟩
  · subst h; exact ⟨formatYmd meta.created, refValue_created meta, GoodVal_formatYmd _⟩
  · refine ⟨v, ?_, GoodVal_of_simple v hs⟩
    unfold refValue
    rw [if_neg hh]

theorem resolveT_of_ok (meta : ZettelMeta) (v w : Str) (h : refValue meta v = .ok w) :
    resolveT meta v = w := by
  unfold resolveT
  rw [h]

theorem renderPairs_ok (meta : ZettelMeta) : ∀ tpl : Tmpl,
    (∀ kv ∈ tpl, ∃ w, refValue meta kv.2 = .ok w) →
    renderPairs meta tpl = .ok (resolvedPairs meta tpl) := by
  intro tpl
  induction tpl with
  | nil => intro _; rfl
  | cons kv rest ih =>
    intro h
    obtain ⟨w, hw⟩ := h kv (List.mem_cons_self kv rest)
    show (match refValue meta kv.2 with
      | Except.error e => Except.error e
      | Except.ok v =>
        match renderPairs meta rest with
        | Except.error e => Except.error e
        | Except.ok ps => Except.ok ((kv.1, v) :: ps)) = _
    rw [hw, ih (fun x hx => h x (List.mem_cons_of_mem kv hx))]
    show Except.ok ((kv.1, w) :: resolvedPairs meta rest) = _
    rw [show resolvedPairs meta (kv :: rest) =
      (kv.1, resolveT meta kv.2) :: resolvedPairs meta rest from rfl]
    rw [resolveT_of_ok meta kv.2 w hw]

theorem resolvedPairs_keys (meta : ZettelMeta) (tpl : Tmpl) :
    (resolvedPairs meta tpl).map Prod.fst = tpl.map Prod.fst := by
  unfold resolvedPairs
  rw [List.map_map]
  rfl

theorem arrange_spec (pairs : List (Str × Str)) : ∀ o : List Str,
    (∀ k ∈ o, (lookupS k pairs).isSome = true) →
    arrange o pairs = o.map (fun k => (k, (lookupS k pairs).getD [])) := by
  intro o
  induction o with
  | nil => intro _; rfl
  | cons k os ih =>
    intro h
    have hk := h k (List.mem_cons_self k os)
    cases hl : lookupS k pairs with
    | none => rw [hl] at hk; cases hk
    | some v =>
      show List.filterMap (fun k => (lookupS k pairs).map (fun v => (k, v))) (k :: os) = _
      rw [List.filterMap_cons]
      rw [hl]
      show (k, v) :: arrange os pairs = _
      rw [ih (fun x hx => h x (List.mem_cons_of_mem k hx)), List.map_cons, hl]
      rfl

theorem rust_lines_nil : rust_lines [] = [] := rfl

/-- For a well-formed template and metadata, rendering succeeds with the
output determined by the intermediate map's iteration order `o`, and parsing
the rendered note back recovers exactly the emitted mapping, its keys in the
order `o`. -/
theorem render_master (o : List Str) (tpl : Tmpl) (meta : ZettelMeta) (body : Str)
    (hok : TplOk tpl meta) (ho : o.Perm (tpl.map Prod.fst)) (hne : tpl ≠ [])
    (hb : BodyOk body) :
    Zettel.as_string o tpl meta body = .ok (renderedOut o tpl meta body) ∧
    frontmatter.parse_yaml (renderedOut o tpl meta body) = .ok (headerVals o meta tpl) := by
  obtain ⟨hnd, hkey, hval, ht, hi⟩ := hok
  have hres : ∀ kv ∈ tpl, ∃ w, refValue meta kv.2 = .ok w ∧ GoodVal w :=
    fun kv hkv => refValue_rv meta kv.2 (hval kv hkv) ht hi
  have hrp : renderPairs meta tpl = .ok (resolvedPairs meta tpl) :=
    renderPairs_ok meta tpl (fun kv hkv => (hres kv hkv).elim (fun w hw => ⟨w, hw.1⟩))
  have h1 : Zettel.as_string o tpl meta body = .ok (renderedOut o tpl meta body) := by
    unfold Zettel.as_string renderedOut
    rw [hrp]
  refine ⟨h1, ?_⟩
  have hkeys : (resolvedPairs meta tpl).map Prod.fst = tpl.map Prod.fst :=
    resolvedPairs_keys meta tpl
  have hsome : ∀ k ∈ o, (lookupS k (resolvedPairs meta tpl)).isSome = true := by
    intro k hk
    refine lookupS_isSome_of_mem_keys k (resolvedPairs meta tpl) ?_
    rw [hkeys]
    exact ho.subset hk
  have harr : arrange o (resolvedPairs meta tpl) =
      o.map (fun k => (k, (lookupS k (resolvedPairs meta tpl)).getD [])) :=
    arrange_spec (resolvedPairs meta tpl) o hsome
  have hgood : ∀ k ∈ o, GoodVal ((lookupS k (resolvedPairs meta tpl)).getD []) ∧
      ':' ∉ k ∧ (∀ c ∈ k, c ≠ '\n' ∧ c ≠ '\r') := by
    intro k hk
    obtain ⟨kv, hkv, hfst⟩ := List.mem_map.mp (ho.subset hk)
    obtain ⟨w, hw, hgw⟩ := hres kv hkv
    have hlook : lookupS k (resolvedPairs meta tpl) = some w := by
      refine lookupS_of_mem_nodup k w (resolvedPairs meta tpl) (by rw [hkeys]; exact hnd) ?_
      refine List.mem_map.mpr ⟨kv, hkv, ?_⟩
      show (kv.1, resolveT meta kv.2) = (k, w)
      rw [hfst, resolveT_of_ok meta kv.2 w hw]
    rw [hlook]
    exact ⟨hgw, hfst ▸ SimpleKey_no_colon kv.1 (hkey kv hkv),
      hfst ▸ SimpleKey_clean kv.1 (hkey kv hkv)⟩
  have hone : o ≠ [] := by
    intro h0
    have hl := ho.length_eq
    rw [h0, List.length_nil, List.length_map] at hl
    exact hne (List.length_eq_zero.mp hl.symm)
  have hLne : (o.map (fun k => (k, (lookupS k (resolvedPairs meta tpl)).getD []))).map
      lineOf ≠ [] := by
    intro h0
    rw [List.map_eq_nil_iff, List.map_eq_nil_iff] at h0
    exact hone h0
  have hLclean : ∀ l ∈ (o.map (fun k =>
      (k, (lookupS k (resolvedPairs meta tpl)).getD []))).map lineOf,
      ∀ c ∈ l, c ≠ '\n' ∧ c ≠ '\r' := by
    intro l hl c hc
    obtain ⟨kv, hkvm, hlo⟩ := List.mem_map.mp hl
    obtain ⟨k, hko, hkv⟩ := List.mem_map.mp hkvm
    subst hkv
    rw [← hlo] at hc
    rcases List.mem_append.mp hc with hc | hc
    · exact (hgood k hko).2.2 c hc
    · rcases List.mem_cons.mp hc with hc | hc
      · subst hc; exact ⟨by decide, by decide⟩
      · rcases List.mem_cons.mp hc with hc | hc
        · subst hc; exact ⟨by decide, by decide⟩
        · exact (hgood k hko).1.2 c hc
  have hLd : ∀ l ∈ (o.map (fun k =>
      (k, (lookupS k (resolvedPairs meta tpl)).getD []))).map lineOf, l ≠ dashes := by
    intro l hl
    obtain ⟨kv, hkvm, hlo⟩ := List.mem_map.mp hl
    rw [← hlo]
    exact lineOf_ne_dashes kv
  obtain ⟨T, hT⟩ : ∃ T, rust_lines (renderedOut o tpl meta body) =
      dashes :: (((o.map (fun k =>
        (k, (lookupS k (resolvedPairs meta tpl)).getD []))).map lineOf) ++
        dashes :: T) := by
    have hshape : renderedOut o tpl meta body =
        dashes ++ '\n' :: (joinSep '\n' ((o.map (fun k =>
          (k, (lookupS k (resolvedPairs meta tpl)).getD []))).map lineOf) ++
          '\n' :: (dashes ++ (body ++ ['\n']))) := by
      unfold renderedOut write_str
      rw [harr]
      simp [List.append_assoc]
    rcases hb with hb | hb
    · refine ⟨[], ?_⟩
      subst hb
      rw [hshape, rust_lines_append dashes _ (by decide),
        rust_lines_join _ _ hLne hLclean]
      rw [show dashes ++ ([] ++ ['\n']) = dashes ++ '\n' :: ([] : Str) by rfl]
      rw [rust_lines_append dashes [] (by decide), rust_lines_nil]
    · obtain ⟨r, hr⟩ : ∃ r, body = '\n' :: r := by
        cases body with
        | nil => cases hb
        | cons c r =>
          have : c = '\n' := by injection hb
          exact ⟨r, by rw [this]⟩
      refine ⟨rust_lines (r ++ ['\n']), ?_⟩
      subst hr
      rw [hshape, rust_lines_append dashes _ (by decide),
        rust_lines_join _ _ hLne hLclean]
      rw [show dashes ++ ('\n' :: r ++ ['\n']) = dashes ++ '\n' :: (r ++ ['\n']) by
        simp [List.append_assoc]]
      rw [rust_lines_append dashes (r ++ ['\n']) (by decide)]
  have hcolfree : ∀ kv ∈ o.map (fun k =>
      (k, (lookupS k (resolvedPairs meta tpl)).getD [])), ':' ∉ kv.1 := by
    intro kv hkvm
    obtain ⟨k, hko, hkv⟩ := List.mem_map.mp hkvm
    subst hkv
    exact (hgood k hko).2.1
  have hmapping : (o.map (fun k =>
      (k, (lookupS k (resolvedPairs meta tpl)).getD []))).map
        (fun kv => (kv.1, classify kv.2)) = headerVals o meta tpl := by
    unfold headerVals
    rw [List.map_map]
    apply List.map_congr_left
    intro k hko
    show (k, classify ((lookupS k (resolvedPairs meta tpl)).getD [])) = _
    rw [(hgood k hko).1.1]
  unfold frontmatter.parse_yaml
  rw [hT]
  dsimp only
  rw [if_pos (rfl : dashes = dashes), untilDelim_spec _ T hLd]
  dsimp only
  rw [yamlParseLines_lines _ hcolfree, hmapping]

/-- C1: the round-trip amended to the bodies the renderer does not corrupt:
for a well-formed template containing the three reference tokens under the
title/id/date keys, plain-scalar metadata, and a body that is empty or
starts with a newline, parsing the rendered note succeeds and the mapping's
title, id and date fields are the source metadata's title, id and created
date formatted YYYY-MM-DD — whatever iteration order the intermediate
HashMap takes. -/
theorem c1_roundtrip_amended (tpl : Tmpl) (meta : ZettelMeta) (body : Str)
    (hok : TplOk tpl meta)
    (hti : ("title".data, "@title".data) ∈ tpl)
    (hid : ("id".data, "@id".data) ∈ tpl)
    (hda : ("date".data, "@created".data) ∈ tpl)
    (hb : BodyOk body) :
    ∀ out, AsStringOut tpl meta body out →
      ∃ m, frontmatter.parse_yaml out = .ok m ∧
        lookupS "title".data m = some (.str meta.title) ∧
        lookupS "id".data m = some (.str meta.id) ∧
        lookupS "date".data m = some (.str (formatYmd meta.created)) := by
  intro out hout
  obtain ⟨o, hperm, has⟩ := hout
  have hne : tpl ≠ [] := by intro h; rw [h] at hti; cases hti
  obtain ⟨h1, h2⟩ := render_master o tpl meta body hok hperm hne hb
  rw [h1] at has
  injection has with has
  subst has
  refine ⟨headerVals o meta tpl, h2, ?_, ?_, ?_⟩
  all_goals {
    first
    | (have hmem : ("title".data, "@title".data) ∈ tpl := hti
       have hkv : lookupS "title".data tpl = some "@title".data :=
         lookupS_of_mem_nodup "title".data "@title".data tpl hok.1 hti
       have hmemo : "title".data ∈ o :=
         hperm.mem_iff.mpr (List.mem_map.mpr ⟨_, hti, rfl⟩)
       have hres : resolveT meta "@title".data = meta.title :=
         resolveT_of_ok meta "@title".data meta.title (refValue_title meta)
       have hlook : lookupS "title".data (resolvedPairs meta tpl) = some meta.title := by
         unfold resolvedPairs
         rw [lookupS_map_val (resolveT meta) "title".data tpl, hkv]
         show some (resolveT meta "@title".data) = _
         rw [hres]
       have hvk : lookupS "title".data (headerVals o meta tpl) =
           some (.str ((lookupS "title".data (resolvedPairs meta tpl)).getD [])) := by
         unfold headerVals
         exact lookupS_map_keyed
           (fun k => YVal.str ((lookupS k (resolvedPairs meta tpl)).getD []))
           "title".data o (hperm.nodup_iff.mpr hok.1) hmemo
       rw [hvk, hlook]
       rfl)
    | (have hkv : lookupS "id".data tpl = some "@id".data :=
         lookupS_of_mem_nodup "id".data "@id".data tpl hok.1 hid
       have hmemo : "id".data ∈ o :=
         hperm.mem_iff.mpr (List.mem_map.mpr ⟨_, hid, rfl⟩)
       have hres : resolveT meta "@id".data = meta.id :=
         resolveT_of_ok meta "@id".data meta.id (refValue_id meta)
       have hlook : lookupS "id".data (resolvedPairs meta tpl) = some meta.id := by
         unfold resolvedPairs
         rw [lookupS_map_val (resolveT meta) "id".data tpl, hkv]
         show some (resolveT meta "@id".data) = _
         rw [hres]
       have hvk : lookupS "id".data (headerVals o meta tpl) =
           some (.str ((lookupS "id".data (resolvedPairs meta tpl)).getD [])) := by
         unfold headerVals
         exact lookupS_map_keyed
           (fun k => YVal.str ((lookupS k (resolvedPairs meta tpl)).getD []))
           "id".data o (hperm.nodup_iff.mpr hok.1) hmemo
       rw [hvk, hlook]
       rfl)
    | (have hkv : lookupS "date".data tpl = some "@created".data :=
         lookupS_of_mem_nodup "date".data "@created".data tpl hok.1 hda
       have hmemo : "date".data ∈ o :=
         hperm.mem_iff.mpr (List.mem_map.mpr ⟨_, hda, rfl⟩)
       have hres : resolveT meta "@created".data = formatYmd meta.created :=
         resolveT_of_ok meta "@created".data (formatYmd meta.created) (refValue_created meta)
       have hlook : lookupS "date".data (resolvedPairs meta tpl) =
           some (formatYmd meta.created) := by
         unfold resolvedPairs
         rw [lookupS_map_val (resolveT meta) "date".data tpl, hkv]
         show some (resolveT meta "@created".data) = _
         rw [hres]
       have hvk : lookupS "date".data (headerVals o meta tpl) =
           some (.str ((lookupS "date".data (resolvedPairs meta tpl)).getD [])) := by
         unfold headerVals
         exact lookupS_map_keyed
           (fun k => YVal.str ((lookupS k (resolvedPairs meta tpl)).getD []))
           "date".data o (hperm.nodup_iff.mpr hok.1) hmemo
       rw [hvk, hlook]
       rfl) }

theorem c1_roundtrip_amended_witness :
    ∃ m, frontmatter.parse_yaml
        "---\ntitle: My Note\nid: abc123\ndate: 2015-05-15\n---\n".data = .ok m ∧
      lookupS "title".data m = some (.str metaW.title) ∧
      lookupS "id".data m = some (.str metaW.id) ∧
      lookupS "date".data m = some (.str (formatYmd metaW.created)) :=
  c1_roundtrip_amended defaultTemplate metaW [] (by decide) (by decide) (by decide)
    (by decide) (Or.inl rfl)
    "---\ntitle: My Note\nid: abc123\ndate: 2015-05-15\n---\n".data
    ⟨["title".data, "id".data, "date".data], by decide, by decide⟩

/-- C2 amended: rendering is deterministic only relative to the iteration
order of the intermediate HashMap: for a fixed order the output bytes are a
function of the inputs, and the key order of the emitted header is exactly
that iteration order — an unspecified permutation of the template's keys,
not the template's own order. -/
theorem c2_deterministic_given_order :
    (∀ (o : List Str) (tpl : Tmpl) (meta : ZettelMeta) (body s₁ s₂ : Str),
      Zettel.as_string o tpl meta body = .ok s₁ →
      Zettel.as_string o tpl meta body = .ok s₂ → s₁ = s₂) ∧
    (∀ (o : List Str) (tpl : Tmpl) (meta : ZettelMeta) (body : Str),
      TplOk tpl meta → o.Perm (tpl.map Prod.fst) → tpl ≠ [] → BodyOk body →
      ∃ m, frontmatter.parse_yaml (renderedOut o tpl meta body) = .ok m ∧
        m.map Prod.fst = o) := by
  constructor
  · intro o tpl meta body s₁ s₂ h1 h2
    rw [h1] at h2
    injection h2
  · intro o tpl meta body hok hperm hne hb
    obtain ⟨-, h2⟩ := render_master o tpl meta body hok hperm hne hb
    refine ⟨headerVals o meta tpl, h2, ?_⟩
    unfold headerVals
    rw [List.map_map]
    exact List.map_id o

theorem c2_deterministic_given_order_witness :
    ∃ m, frontmatter.parse_yaml
        (renderedOut ["id".data, "title".data, "date".data] defaultTemplate metaW []) =
          .ok m ∧
      m.map Prod.fst = ["id".data, "title".data, "date".data] :=
  c2_deterministic_given_order.2 ["id".data, "title".data, "date".data] defaultTemplate
    metaW [] (by decide) (by decide) (by decide) (Or.inl rfl)
